import Mathlib

/-!
Shallow embedding of `gibbs_sharpe_student` from `gibbs_augmented.ipynb`:
a Gibbs sampler for Bayesian Sharpe-ratio estimation under Student-t
returns, via normal scale-mixture data augmentation.

The Python routine is a pure function of its inputs and of the stream of
pseudo-random draws it makes (it seeds NumPy's global generator once at
entry).  We model the random facility as an *oracle*: a function from a
draw position (the number of draws consumed so far) and a draw request
(the distribution and its parameters, exactly as the code passes them to
`gamma.rvs`, `np.random.normal`, `invgamma.rvs`) to the returned value.
Real arithmetic is idealized over an arbitrary linear ordered field with
an abstract square-root primitive `sqrtf` standing for `np.sqrt` (the
spec lists the arithmetic primitives as external collaborators), so all
definitions stay executable and can be evaluated at rational inputs.
-/

namespace Gibbs

/-- A request to the random facility: the distribution the code samples
from together with the parameters it passes.  `gammaD shape scale` is
`gamma.rvs(a=shape, scale=scale)`, `normalD m sd` is
`np.random.normal(m, sd)`, `invGammaD shape scale` is
`invgamma.rvs(a=shape, scale=scale)`. -/
inductive DrawReq (α : Type) where
  | gammaD (shape scale : α)
  | normalD (mean sd : α)
  | invGammaD (shape scale : α)
deriving DecidableEq

/-- The kind of a draw request, forgetting its parameters. -/
inductive Kind where
  | gammaK
  | normalK
  | invGammaK
deriving DecidableEq

/-- Forget the parameters of a draw request. -/
def reqKind {α : Type} : DrawReq α → Kind
  | .gammaD _ _ => .gammaK
  | .normalD _ _ => .normalK
  | .invGammaD _ _ => .invGammaK

/-- The random facility: position in the draw stream and request to value. -/
def Oracle (α : Type) := ℕ → DrawReq α → α

/-- The fixed hyperparameters of the model (`nu`, `mu0`, `tau2`, `a0`, `b0`). -/
structure Params (α : Type) where
  nu : α
  mu0 : α
  tau2 : α
  a0 : α
  b0 : α
deriving DecidableEq

/-- The chain state: location `mu`, variance `sigma2`, latent scale vector
`lambdas` (one entry per observation). -/
structure GState (α : Type) where
  mu : α
  sigma2 : α
  lambdas : List α
deriving DecidableEq

variable {α : Type} [LinearOrderedField α]

/-- `np.mean`: the sample mean. -/
def npMean (xs : List α) : α := xs.sum / (xs.length : α)

/-- `np.var(xs, ddof=1)`: the unbiased sample variance (divide by n - 1). -/
def npVar1 (xs : List α) : α :=
  (xs.map fun x => (x - npMean xs) ^ 2).sum / ((xs.length : α) - 1)

/-- Consume one draw per request, at consecutive stream positions
starting from `pos`. -/
def drawList (ω : Oracle α) : ℕ → List (DrawReq α) → List α
  | _, [] => []
  | pos, r :: rs => ω pos r :: drawList ω (pos + 1) rs

/-- Everything one loop iteration produces: the updated chain state, the
recorded `(mu, sigma2, sharpe)` triple, and the sequence of draw requests
it issued. -/
structure StepOut (α : Type) where
  state : GState α
  record : α × α × α
  trace : List (DrawReq α)

/-- One iteration of the Gibbs loop body, translated line by line:

1. `resids = returns - mu`; draw each `lambda_i` from
   `Gamma((nu+1)/2, scale = 2/(nu + resids_i^2/sigma2))`;
2. `tau2_n = 1/(1/tau2 + sum(lambdas)/sigma2)`,
   `mu_n = tau2_n * (mu0/tau2 + sum(lambdas*returns)/sigma2)`,
   draw `mu` from `Normal(mu_n, sqrt(tau2_n))`;
3. `a_n = a0 + n/2`, `b_n = b0 + 0.5*sum(lambdas*(returns-mu)^2)`,
   draw `sigma2` from `InvGamma(a_n, scale = b_n)`;
4. record `(mu, sigma2, mu/sqrt(sigma2))`.

`pos` is the number of random draws consumed before this iteration; the
iteration consumes positions `pos, ..., pos + n + 1`. -/
def gibbsStep (sqrtf : α → α) (P : Params α) (returns : List α) (ω : Oracle α)
    (pos : ℕ) (st : GState α) : StepOut α :=
  let n := returns.length
  let lamReqs := returns.map fun x =>
    DrawReq.gammaD ((P.nu + 1) / 2) (2 / (P.nu + (x - st.mu) ^ 2 / st.sigma2))
  let lambdas := drawList ω pos lamReqs
  let tau2_n := 1 / (1 / P.tau2 + lambdas.sum / st.sigma2)
  let mu_n := tau2_n *
    (P.mu0 / P.tau2 + (List.zipWith (fun l x => l * x) lambdas returns).sum / st.sigma2)
  let muReq := DrawReq.normalD mu_n (sqrtf tau2_n)
  let mu := ω (pos + n) muReq
  let a_n := P.a0 + (n : α) / 2
  let b_n := P.b0 + 1 / 2 * (List.zipWith (fun l x => l * (x - mu) ^ 2) lambdas returns).sum
  let s2Req := DrawReq.invGammaD a_n b_n
  let sigma2 := ω (pos + n + 1) s2Req
  { state := { mu := mu, sigma2 := sigma2, lambdas := lambdas }
    record := (mu, sigma2, mu / sqrtf sigma2)
    trace := lamReqs ++ [muReq, s2Req] }

/-- The initial chain state: `mu = np.mean(returns)`,
`sigma2 = np.var(returns, ddof=1)`, `lambdas = np.ones(n)`. -/
def initState (returns : List α) : GState α :=
  { mu := npMean returns
    sigma2 := npVar1 returns
    lambdas := List.replicate returns.length 1 }

/-- Run `k` iterations of the loop from state `st` with `pos` draws already
consumed, collecting each iteration's output in order. -/
def gibbsIters (sqrtf : α → α) (P : Params α) (returns : List α) (ω : Oracle α) :
    ℕ → ℕ → GState α → List (StepOut α)
  | 0, _, _ => []
  | k + 1, pos, st =>
    let out := gibbsStep sqrtf P returns ω pos st
    out :: gibbsIters sqrtf P returns ω k (pos + returns.length + 2) out.state

/-- The full (pre-burn-in) chain of recorded `(mu, sigma2, sharpe)` triples,
one per iteration. -/
def gibbsRecords (sqrtf : α → α) (P : Params α) (returns : List α) (ω : Oracle α)
    (n_iter : ℕ) : List (α × α × α) :=
  (gibbsIters sqrtf P returns ω n_iter 0 (initState returns)).map StepOut.record

/-- The per-iteration draw-request traces of the full run. -/
def gibbsTraces (sqrtf : α → α) (P : Params α) (returns : List α) (ω : Oracle α)
    (n_iter : ℕ) : List (List (DrawReq α)) :=
  (gibbsIters sqrtf P returns ω n_iter 0 (initState returns)).map StepOut.trace

/-- The embedded `gibbs_sharpe_student`: run `n_iter` iterations from the
initial state, then return the three per-iteration sample sequences with
the first `burn_in` entries discarded (`mu_samples[burn_in:]` etc.; like
the Python slice, `List.drop` clamps when `burn_in` exceeds the length). -/
def gibbs_sharpe_student (sqrtf : α → α) (P : Params α) (returns : List α)
    (n_iter burn_in : ℕ) (ω : Oracle α) : List α × List α × List α :=
  let recs := gibbsRecords sqrtf P returns ω n_iter
  ((recs.map fun r => r.1).drop burn_in,
   (recs.map fun r => r.2.1).drop burn_in,
   (recs.map fun r => r.2.2).drop burn_in)

/-- A pseudo-random generator algorithm: a seed determines the whole
oracle (the code calls `np.random.seed(seed)` once at entry). -/
def Prng (α : Type) := ℤ → Oracle α

/-- `gibbs_sharpe_student` as called in the source: the oracle is obtained
by seeding a generator algorithm with `seed`. -/
def gibbsSeeded (sqrtf : α → α) (G : Prng α) (seed : ℤ) (P : Params α)
    (returns : List α) (n_iter burn_in : ℕ) : List α × List α × List α :=
  gibbs_sharpe_student sqrtf P returns n_iter burn_in (G seed)

/-- The chain state after `i` further iterations, starting from state `st`
with `pos` draws already consumed. -/
def stateFrom (sqrtf : α → α) (P : Params α) (returns : List α) (ω : Oracle α) :
    ℕ → ℕ → GState α → GState α
  | 0, _, st => st
  | i + 1, pos, st =>
    stateFrom sqrtf P returns ω i (pos + returns.length + 2)
      (gibbsStep sqrtf P returns ω pos st).state

/-- The chain state entering iteration `i` of the run (so `stateBefore 0`
is the initial state and `stateBefore (i+1)` holds the values drawn at
iteration `i`). -/
def stateBefore (sqrtf : α → α) (P : Params α) (returns : List α) (ω : Oracle α)
    (i : ℕ) : GState α :=
  stateFrom sqrtf P returns ω i 0 (initState returns)

/-- A positivity-respecting oracle: whenever the code requests a draw from
a Gamma or Inverse-Gamma distribution with strictly positive shape and
scale (a well-formed distribution whose support is `(0, ∞)`), the value
returned is strictly positive.  This is the model-level rendering of
"drawn from a strictly-positive-support distribution". -/
def PosOracle (ω : Oracle α) : Prop :=
  ∀ (pos : ℕ) (sh sc : α), 0 < sh → 0 < sc →
    0 < ω pos (DrawReq.gammaD sh sc) ∧ 0 < ω pos (DrawReq.invGammaD sh sc)

/-! ### Basic structure of the run -/

theorem gibbsIters_length (sqrtf : α → α) (P : Params α) (returns : List α) (ω : Oracle α) :
    ∀ (k pos : ℕ) (st : GState α), (gibbsIters sqrtf P returns ω k pos st).length = k
  | 0, _, _ => rfl
  | k + 1, pos, st => by
    simp only [gibbsIters, List.length_cons,
      gibbsIters_length sqrtf P returns ω k (pos + returns.length + 2)]

theorem gibbsRecords_length (sqrtf : α → α) (P : Params α) (returns : List α)
    (ω : Oracle α) (n_iter : ℕ) :
    (gibbsRecords sqrtf P returns ω n_iter).length = n_iter := by
  simp [gibbsRecords, gibbsIters_length]

/-- C2: for every input with `n_iter > 0` and `0 ≤ burn_in < n_iter`, each of
the three returned sequences (mu samples, sigma² samples, Sharpe samples) has
length exactly `n_iter - burn_in`, including the case `burn_in = 0`. -/
theorem C2_output_lengths (sqrtf : α → α) (P : Params α) (returns : List α)
    (ω : Oracle α) (n_iter burn_in : ℕ) (hn : 0 < n_iter) (hb : burn_in < n_iter) :
    (gibbs_sharpe_student sqrtf P returns n_iter burn_in ω).1.length = n_iter - burn_in ∧
    (gibbs_sharpe_student sqrtf P returns n_iter burn_in ω).2.1.length = n_iter - burn_in ∧
    (gibbs_sharpe_student sqrtf P returns n_iter burn_in ω).2.2.length = n_iter - burn_in := by
  simp [gibbs_sharpe_student, gibbsRecords, gibbsIters_length]

theorem C2_output_lengths_witness :
    (0 < 2 ∧ 1 < 2) ∧
    ((gibbs_sharpe_student (fun x => x) ⟨1, 0, 1, 1, 1⟩ ([0, 1] : List ℚ) 2 1
        fun _ _ => 1).1.length = 2 - 1 ∧
      (gibbs_sharpe_student (fun x => x) ⟨1, 0, 1, 1, 1⟩ ([0, 1] : List ℚ) 2 1
        fun _ _ => 1).2.1.length = 2 - 1 ∧
      (gibbs_sharpe_student (fun x => x) ⟨1, 0, 1, 1, 1⟩ ([0, 1] : List ℚ) 2 1
        fun _ _ => 1).2.2.length = 2 - 1) :=
  ⟨⟨by decide, by decide⟩,
    C2_output_lengths (fun x => x) ⟨1, 0, 1, 1, 1⟩ ([0, 1] : List ℚ) (fun _ _ => 1) 2 1
      (by decide) (by decide)⟩

/-- C6: before the first iteration the chain state is `mu` = sample mean of
the returns, `sigma2` = unbiased sample variance (divide by n − 1), and the
latent scale vector is all ones, length n. -/
theorem C6_initial_state (returns : List α) :
    (initState returns).mu = returns.sum / (returns.length : α) ∧
    (initState returns).sigma2 =
      (returns.map fun x => (x - returns.sum / (returns.length : α)) ^ 2).sum /
        ((returns.length : α) - 1) ∧
    (initState returns).lambdas = List.replicate returns.length 1 :=
  ⟨rfl, rfl, rfl⟩

/-- C10: when `burn_in ≥ n_iter` the function still completes all `n_iter`
iterations (the full chain has length `n_iter`) and raises no error: the
final slice clamps, so it returns three empty sequences. -/
theorem C10_burnin_ge_niter_empty (sqrtf : α → α) (P : Params α) (returns : List α)
    (ω : Oracle α) (n_iter burn_in : ℕ) (h : n_iter ≤ burn_in) :
    gibbs_sharpe_student sqrtf P returns n_iter burn_in ω = ([], [], []) ∧
    (gibbsRecords sqrtf P returns ω n_iter).length = n_iter := by
  refine ⟨?_, gibbsRecords_length sqrtf P returns ω n_iter⟩
  have hlen : ∀ g : α × α × α → α,
      ((gibbsRecords sqrtf P returns ω n_iter).map g).length ≤ burn_in := by
    intro g
    simp only [List.length_map, gibbsRecords_length]
    exact h
  simp only [gibbs_sharpe_student]
  rw [List.drop_eq_nil_of_le (hlen _), List.drop_eq_nil_of_le (hlen _),
    List.drop_eq_nil_of_le (hlen _)]

theorem C10_burnin_ge_niter_empty_witness :
    2 ≤ 3 ∧
    (gibbs_sharpe_student (fun x => x) ⟨1, 0, 1, 1, 1⟩ ([0, 1] : List ℚ) 2 3
        (fun _ _ => 1) = ([], [], []) ∧
      (gibbsRecords (fun x => x) ⟨1, 0, 1, 1, 1⟩ ([0, 1] : List ℚ) (fun _ _ => 1) 2).length
        = 2) :=
  ⟨by decide,
    C10_burnin_ge_niter_empty (fun x => x) ⟨1, 0, 1, 1, 1⟩ ([0, 1] : List ℚ)
      (fun _ _ => 1) 2 3 (by decide)⟩

/-! ### Draw trace and record structure -/

theorem gibbsIters_trace_shape (sqrtf : α → α) (P : Params α) (returns : List α)
    (ω : Oracle α) :
    ∀ (k pos : ℕ) (st : GState α), ∀ out ∈ gibbsIters sqrtf P returns ω k pos st,
      out.trace.map reqKind =
        List.replicate returns.length Kind.gammaK ++ [Kind.normalK, Kind.invGammaK]
  | 0, _, _ => by intro out h; simp [gibbsIters] at h
  | k + 1, pos, st => by
    intro out h
    simp only [gibbsIters, List.mem_cons] at h
    rcases h with h | h
    · subst h
      simp [gibbsStep, reqKind, List.map_map, Function.comp_def]
    · exact gibbsIters_trace_shape sqrtf P returns ω k _ _ out h

theorem gibbsIters_record_sharpe (sqrtf : α → α) (P : Params α) (returns : List α)
    (ω : Oracle α) :
    ∀ (k pos : ℕ) (st : GState α), ∀ out ∈ gibbsIters sqrtf P returns ω k pos st,
      out.record.2.2 = out.record.1 / sqrtf out.record.2.1
  | 0, _, _ => by intro out h; simp [gibbsIters] at h
  | k + 1, pos, st => by
    intro out h
    simp only [gibbsIters, List.mem_cons] at h
    rcases h with h | h
    · subst h; rfl
    · exact gibbsIters_record_sharpe sqrtf P returns ω k _ _ out h

/-- C9: the sampler always runs to completion, executing the update cycle
exactly `n_iter` times with no branching and no early termination, and each
iteration consumes exactly `n` Gamma draws, then one Normal draw, then one
Inverse-Gamma draw. -/
theorem C9_total_run_and_draw_counts (sqrtf : α → α) (P : Params α) (returns : List α)
    (ω : Oracle α) (n_iter : ℕ) :
    (gibbsIters sqrtf P returns ω n_iter 0 (initState returns)).length = n_iter ∧
    ∀ t ∈ gibbsTraces sqrtf P returns ω n_iter,
      t.length = returns.length + 2 ∧
      t.map reqKind =
        List.replicate returns.length Kind.gammaK ++ [Kind.normalK, Kind.invGammaK] := by
  refine ⟨gibbsIters_length sqrtf P returns ω n_iter 0 (initState returns), ?_⟩
  intro t ht
  simp only [gibbsTraces, List.mem_map] at ht
  obtain ⟨out, hout, rfl⟩ := ht
  have hk := gibbsIters_trace_shape sqrtf P returns ω n_iter 0 (initState returns) out hout
  refine ⟨?_, hk⟩
  have := congrArg List.length hk
  simpa using this

theorem C9_total_run_and_draw_counts_witness :
    (gibbsIters (fun x => x) ⟨1, 0, 1, 1, 1⟩ ([0, 1] : List ℚ) (fun _ _ => 1) 2 0
      (initState ([0, 1] : List ℚ))).length = 2 ∧
    ∀ t ∈ gibbsTraces (fun x => x) ⟨1, 0, 1, 1, 1⟩ ([0, 1] : List ℚ) (fun _ _ => 1) 2,
      t.length = ([0, 1] : List ℚ).length + 2 ∧
      t.map reqKind =
        List.replicate ([0, 1] : List ℚ).length Kind.gammaK ++
          [Kind.normalK, Kind.invGammaK] :=
  C9_total_run_and_draw_counts (fun x => x) ⟨1, 0, 1, 1, 1⟩ ([0, 1] : List ℚ)
    (fun _ _ => 1) 2

/-- C3: for every index `i` of the returned sequences, the Sharpe sample at
`i` equals the mu sample at `i` divided by the square root of the sigma²
sample at `i` (all three recorded at the same iteration). -/
theorem C3_sharpe_consistency (sqrtf : α → α) (P : Params α) (returns : List α)
    (ω : Oracle α) (n_iter burn_in i : ℕ)
    (h : i < (gibbs_sharpe_student sqrtf P returns n_iter burn_in ω).2.2.length) :
    (gibbs_sharpe_student sqrtf P returns n_iter burn_in ω).2.2.getD i 0 =
      (gibbs_sharpe_student sqrtf P returns n_iter burn_in ω).1.getD i 0 /
        sqrtf ((gibbs_sharpe_student sqrtf P returns n_iter burn_in ω).2.1.getD i 0) := by
  simp only [gibbs_sharpe_student, List.length_drop, List.length_map] at h ⊢
  have hidx : burn_in + i < (gibbsRecords sqrtf P returns ω n_iter).length := by omega
  rw [List.getD_eq_getElem?_getD, List.getD_eq_getElem?_getD, List.getD_eq_getElem?_getD,
    List.getElem?_drop, List.getElem?_drop, List.getElem?_drop,
    List.getElem?_map, List.getElem?_map, List.getElem?_map,
    List.getElem?_eq_getElem hidx]
  simp only [Option.map_some', Option.getD_some]
  set r := (gibbsRecords sqrtf P returns ω n_iter)[burn_in + i] with hr
  have hmem : r ∈ gibbsRecords sqrtf P returns ω n_iter := by
    rw [hr]; exact List.getElem_mem hidx
  simp only [gibbsRecords, List.mem_map] at hmem
  obtain ⟨out, hout, hrec⟩ := hmem
  rw [← hrec]
  exact gibbsIters_record_sharpe sqrtf P returns ω n_iter 0 (initState returns) out hout

theorem C3_sharpe_consistency_witness :
    0 < (gibbs_sharpe_student (fun x => x) ⟨1, 0, 1, 1, 1⟩ ([0, 1] : List ℚ) 1 0
        fun _ _ => 1).2.2.length ∧
    (gibbs_sharpe_student (fun x => x) ⟨1, 0, 1, 1, 1⟩ ([0, 1] : List ℚ) 1 0
        fun _ _ => 1).2.2.getD 0 0 =
      (gibbs_sharpe_student (fun x => x) ⟨1, 0, 1, 1, 1⟩ ([0, 1] : List ℚ) 1 0
        fun _ _ => 1).1.getD 0 0 /
        (fun x => x)
          ((gibbs_sharpe_student (fun x => x) ⟨1, 0, 1, 1, 1⟩ ([0, 1] : List ℚ) 1 0
            fun _ _ => 1).2.1.getD 0 0) :=
  ⟨by decide,
    C3_sharpe_consistency (fun x => x) ⟨1, 0, 1, 1, 1⟩ ([0, 1] : List ℚ)
      (fun _ _ => 1) 1 0 0 (by decide)⟩

/-- C7: for valid `0 ≤ burn_in < n_iter`, the returned sequences are exactly
the entries of the full `n_iter`-length chain at iteration indices
`burn_in + i`, index-aligned across the three sequences, with lengths
`n_iter - burn_in`. -/
theorem C7_slice_of_full_chain (sqrtf : α → α) (P : Params α) (returns : List α)
    (ω : Oracle α) (n_iter burn_in : ℕ) (hb : burn_in < n_iter) (i : ℕ) :
    (gibbs_sharpe_student sqrtf P returns n_iter burn_in ω).1[i]? =
      ((gibbsRecords sqrtf P returns ω n_iter).map fun r => r.1)[burn_in + i]? ∧
    (gibbs_sharpe_student sqrtf P returns n_iter burn_in ω).2.1[i]? =
      ((gibbsRecords sqrtf P returns ω n_iter).map fun r => r.2.1)[burn_in + i]? ∧
    (gibbs_sharpe_student sqrtf P returns n_iter burn_in ω).2.2[i]? =
      ((gibbsRecords sqrtf P returns ω n_iter).map fun r => r.2.2)[burn_in + i]? ∧
    (gibbs_sharpe_student sqrtf P returns n_iter burn_in ω).1.length = n_iter - burn_in := by
  simp [gibbs_sharpe_student, List.getElem?_drop, gibbsRecords_length, List.length_drop]

theorem C7_slice_of_full_chain_witness :
    1 < 2 ∧
    ((gibbs_sharpe_student (fun x => x) ⟨1, 0, 1, 1, 1⟩ ([0, 1] : List ℚ) 2 1
        fun _ _ => 1).1[0]? =
      ((gibbsRecords (fun x => x) ⟨1, 0, 1, 1, 1⟩ ([0, 1] : List ℚ) (fun _ _ => 1) 2).map
        fun r => r.1)[1 + 0]? ∧
    (gibbs_sharpe_student (fun x => x) ⟨1, 0, 1, 1, 1⟩ ([0, 1] : List ℚ) 2 1
        fun _ _ => 1).2.1[0]? =
      ((gibbsRecords (fun x => x) ⟨1, 0, 1, 1, 1⟩ ([0, 1] : List ℚ) (fun _ _ => 1) 2).map
        fun r => r.2.1)[1 + 0]? ∧
    (gibbs_sharpe_student (fun x => x) ⟨1, 0, 1, 1, 1⟩ ([0, 1] : List ℚ) 2 1
        fun _ _ => 1).2.2[0]? =
      ((gibbsRecords (fun x => x) ⟨1, 0, 1, 1, 1⟩ ([0, 1] : List ℚ) (fun _ _ => 1) 2).map
        fun r => r.2.2)[1 + 0]? ∧
    (gibbs_sharpe_student (fun x => x) ⟨1, 0, 1, 1, 1⟩ ([0, 1] : List ℚ) 2 1
        fun _ _ => 1).1.length = 2 - 1) :=
  ⟨by decide,
    C7_slice_of_full_chain (fun x => x) ⟨1, 0, 1, 1, 1⟩ ([0, 1] : List ℚ)
      (fun _ _ => 1) 2 1 (by decide) 0⟩

/-! ### Determinism: the run is a function of the consumed draw prefix -/

theorem drawList_congr (ω₁ ω₂ : Oracle α) :
    ∀ (rs : List (DrawReq α)) (pos : ℕ),
      (∀ p r, pos ≤ p → p < pos + rs.length → ω₁ p r = ω₂ p r) →
      drawList ω₁ pos rs = drawList ω₂ pos rs
  | [], _, _ => rfl
  | r :: rs, pos, h => by
    simp only [drawList]
    rw [h pos r (le_refl pos) (by simp),
      drawList_congr ω₁ ω₂ rs (pos + 1)
        (fun p r' hp hl => h p r' (by omega) (by simp only [List.length_cons]; omega))]

theorem gibbsStep_congr (sqrtf : α → α) (P : Params α) (returns : List α)
    (ω₁ ω₂ : Oracle α) (pos : ℕ) (st : GState α)
    (h : ∀ p r, pos ≤ p → p < pos + returns.length + 2 → ω₁ p r = ω₂ p r) :
    gibbsStep sqrtf P returns ω₁ pos st = gibbsStep sqrtf P returns ω₂ pos st := by
  have hlam : drawList ω₁ pos (returns.map fun x =>
      DrawReq.gammaD ((P.nu + 1) / 2) (2 / (P.nu + (x - st.mu) ^ 2 / st.sigma2))) =
      drawList ω₂ pos (returns.map fun x =>
      DrawReq.gammaD ((P.nu + 1) / 2) (2 / (P.nu + (x - st.mu) ^ 2 / st.sigma2))) :=
    drawList_congr ω₁ ω₂ _ pos
      (fun p r hp hl => h p r hp (by rw [List.length_map] at hl; omega))
  simp only [gibbsStep, hlam]
  rw [h (pos + returns.length) _ (by omega) (by omega)]
  rw [h (pos + returns.length + 1) _ (by omega) (by omega)]

theorem gibbsIters_congr (sqrtf : α → α) (P : Params α) (returns : List α)
    (ω₁ ω₂ : Oracle α) :
    ∀ (k pos : ℕ) (st : GState α),
      (∀ p r, pos ≤ p → p < pos + k * (returns.length + 2) → ω₁ p r = ω₂ p r) →
      gibbsIters sqrtf P returns ω₁ k pos st = gibbsIters sqrtf P returns ω₂ k pos st
  | 0, _, _, _ => rfl
  | k + 1, pos, st, h => by
    have hmul : (k + 1) * (returns.length + 2)
        = k * (returns.length + 2) + (returns.length + 2) := Nat.succ_mul _ _
    have hstep := gibbsStep_congr sqrtf P returns ω₁ ω₂ pos st
      (fun p r hp hl => h p r hp (by omega))
    have htail := gibbsIters_congr sqrtf P returns ω₁ ω₂ k (pos + returns.length + 2)
      (gibbsStep sqrtf P returns ω₂ pos st).state
      (fun p r hp hl => h p r (by omega) (by omega))
    simp only [gibbsIters]
    rw [hstep, htail]

/-- C5: the sampler is deterministic given the seed: two invocations with
identical inputs (returns, hyperparameters, seed) over pseudo-random
generators that agree, at that seed, on the draws actually consumed
(`n_iter * (n + 2)` of them, in the same order) produce identical output
sequences.  In particular two runs over the same generator algorithm
coincide. -/
theorem C5_deterministic_given_seed (sqrtf : α → α) (G₁ G₂ : Prng α) (seed : ℤ)
    (P : Params α) (returns : List α) (n_iter burn_in : ℕ)
    (h : ∀ p r, p < n_iter * (returns.length + 2) → G₁ seed p r = G₂ seed p r) :
    gibbsSeeded sqrtf G₁ seed P returns n_iter burn_in =
      gibbsSeeded sqrtf G₂ seed P returns n_iter burn_in := by
  have hiters := gibbsIters_congr sqrtf P returns (G₁ seed) (G₂ seed) n_iter 0
    (initState returns) (fun p r _ hl => h p r (by omega))
  simp only [gibbsSeeded, gibbs_sharpe_student, gibbsRecords, hiters]

theorem C5_deterministic_given_seed_witness :
    (∀ (p : ℕ) (r : DrawReq ℚ), p < 1 * (([0, 1] : List ℚ).length + 2) →
      (fun (_ : ℤ) (_ : ℕ) (_ : DrawReq ℚ) => (1 : ℚ)) 0 p r =
      (fun (_ : ℤ) (_ : ℕ) (_ : DrawReq ℚ) => (1 : ℚ)) 0 p r) ∧
    gibbsSeeded (fun x => x) (fun _ _ _ => 1) 0 ⟨1, 0, 1, 1, 1⟩ ([0, 1] : List ℚ) 1 0 =
      gibbsSeeded (fun x => x) (fun _ _ _ => 1) 0 ⟨1, 0, 1, 1, 1⟩ ([0, 1] : List ℚ) 1 0 :=
  ⟨fun _ _ _ => rfl,
    C5_deterministic_given_seed (fun x => x) (fun _ _ _ => 1) (fun _ _ _ => 1) 0
      ⟨1, 0, 1, 1, 1⟩ ([0, 1] : List ℚ) 1 0 (fun _ _ _ => rfl)⟩

/-! ### The per-iteration update cycle -/

theorem stateFrom_succ (sqrtf : α → α) (P : Params α) (returns : List α) (ω : Oracle α) :
    ∀ (i pos : ℕ) (st : GState α),
      stateFrom sqrtf P returns ω (i + 1) pos st =
        (gibbsStep sqrtf P returns ω (pos + i * (returns.length + 2))
          (stateFrom sqrtf P returns ω i pos st)).state
  | 0, pos, st => by simp [stateFrom]
  | i + 1, pos, st => by
    have harith : pos + returns.length + 2 + i * (returns.length + 2)
        = pos + (i + 1) * (returns.length + 2) := by ring
    show stateFrom sqrtf P returns ω (i + 1) (pos + returns.length + 2)
        (gibbsStep sqrtf P returns ω pos st).state = _
    rw [stateFrom_succ sqrtf P returns ω i (pos + returns.length + 2)
      (gibbsStep sqrtf P returns ω pos st).state, harith]
    rfl

theorem gibbsIters_getElem? (sqrtf : α → α) (P : Params α) (returns : List α)
    (ω : Oracle α) :
    ∀ (k i pos : ℕ) (st : GState α), i < k →
      (gibbsIters sqrtf P returns ω k pos st)[i]? =
        some (gibbsStep sqrtf P returns ω (pos + i * (returns.length + 2))
          (stateFrom sqrtf P returns ω i pos st))
  | 0, i, _, _, h => absurd h (Nat.not_lt_zero i)
  | k + 1, 0, pos, st, _ => by simp [gibbsIters, stateFrom]
  | k + 1, i + 1, pos, st, h => by
    have harith : pos + returns.length + 2 + i * (returns.length + 2)
        = pos + (i + 1) * (returns.length + 2) := by ring
    simp only [gibbsIters, List.getElem?_cons_succ]
    rw [gibbsIters_getElem? sqrtf P returns ω k i (pos + returns.length + 2)
      (gibbsStep sqrtf P returns ω pos st).state (by omega), harith]
    rfl

theorem stateBefore_succ (sqrtf : α → α) (P : Params α) (returns : List α)
    (ω : Oracle α) (i : ℕ) :
    stateBefore sqrtf P returns ω (i + 1) =
      (gibbsStep sqrtf P returns ω (i * (returns.length + 2))
        (stateBefore sqrtf P returns ω i)).state := by
  simp only [stateBefore]
  rw [stateFrom_succ, Nat.zero_add]

theorem gibbsStep_trace_spec (sqrtf : α → α) (P : Params α) (returns : List α)
    (ω : Oracle α) (pos : ℕ) (st : GState α) :
    (gibbsStep sqrtf P returns ω pos st).trace =
      (returns.map fun x =>
        DrawReq.gammaD ((P.nu + 1) / 2)
          (2 / (P.nu + (x - st.mu) ^ 2 / st.sigma2))) ++
      [DrawReq.normalD
          ((1 / (1 / P.tau2 +
              (gibbsStep sqrtf P returns ω pos st).state.lambdas.sum / st.sigma2)) *
            (P.mu0 / P.tau2 +
              (List.zipWith (fun l x => l * x)
                (gibbsStep sqrtf P returns ω pos st).state.lambdas returns).sum /
                st.sigma2))
          (sqrtf (1 / (1 / P.tau2 +
              (gibbsStep sqrtf P returns ω pos st).state.lambdas.sum / st.sigma2))),
        DrawReq.invGammaD (P.a0 + (returns.length : α) / 2)
          (P.b0 + 1 / 2 *
            (List.zipWith
              (fun l x => l * (x - (gibbsStep sqrtf P returns ω pos st).state.mu) ^ 2)
              (gibbsStep sqrtf P returns ω pos st).state.lambdas returns).sum)] := rfl

/-- C1: in every iteration `i < n_iter`, the three conditional updates
happen in the fixed order Gamma vector, then Normal, then Inverse-Gamma,
with exactly the claimed parameters: each latent scale is drawn from
Gamma(shape `(nu+1)/2`, scale `2/(nu + (rⱼ)²/sigma²)`) where the residual
`rⱼ = returns[j] − mu` uses the mu and sigma² entering the iteration
(`stateBefore i`); mu is drawn from Normal(`mu_n`, sqrt(`tau2_n`)) with
`tau2_n = 1/(1/tau2 + Σλ/sigma²)` and
`mu_n = tau2_n·(mu0/tau2 + Σλⱼ·returnsⱼ/sigma²)` using the latent vector
just drawn (recorded in `stateBefore (i+1)`) and the previous iteration's
sigma²; sigma² is drawn from Inverse-Gamma(shape `a0 + n/2`, scale
`b0 + ½·Σλⱼ(returnsⱼ − mu_new)²`) using the mu just drawn. -/
theorem C1_update_cycle (sqrtf : α → α) (P : Params α) (returns : List α)
    (ω : Oracle α) (n_iter i : ℕ) (h : i < n_iter) :
    (gibbsTraces sqrtf P returns ω n_iter)[i]? =
      some
        ((returns.map fun x =>
          DrawReq.gammaD ((P.nu + 1) / 2)
            (2 / (P.nu + (x - (stateBefore sqrtf P returns ω i).mu) ^ 2 /
              (stateBefore sqrtf P returns ω i).sigma2))) ++
        [DrawReq.normalD
            ((1 / (1 / P.tau2 +
                (stateBefore sqrtf P returns ω (i + 1)).lambdas.sum /
                  (stateBefore sqrtf P returns ω i).sigma2)) *
              (P.mu0 / P.tau2 +
                (List.zipWith (fun l x => l * x)
                  (stateBefore sqrtf P returns ω (i + 1)).lambdas returns).sum /
                  (stateBefore sqrtf P returns ω i).sigma2))
            (sqrtf (1 / (1 / P.tau2 +
                (stateBefore sqrtf P returns ω (i + 1)).lambdas.sum /
                  (stateBefore sqrtf P returns ω i).sigma2))),
          DrawReq.invGammaD (P.a0 + (returns.length : α) / 2)
            (P.b0 + 1 / 2 *
              (List.zipWith
                (fun l x =>
                  l * (x - (stateBefore sqrtf P returns ω (i + 1)).mu) ^ 2)
                (stateBefore sqrtf P returns ω (i + 1)).lambdas returns).sum)]) := by
  have hget := gibbsIters_getElem? sqrtf P returns ω n_iter i 0 (initState returns) h
  rw [stateBefore_succ sqrtf P returns ω i]
  simp only [gibbsTraces, List.getElem?_map, hget, Option.map_some', stateBefore,
    Nat.zero_add]
  rw [gibbsStep_trace_spec]

theorem C1_update_cycle_witness :
    0 < 1 ∧
    (gibbsTraces (fun x => x) ⟨1, 0, 1, 1, 1⟩ ([0, 1] : List ℚ) (fun _ _ => 1) 1)[0]? =
      some
        ((([0, 1] : List ℚ).map fun x =>
          DrawReq.gammaD ((Params.nu ⟨1, 0, 1, 1, 1⟩ + 1) / 2)
            (2 / (Params.nu ⟨1, 0, 1, 1, 1⟩ +
              (x - (stateBefore (fun x => x) ⟨1, 0, 1, 1, 1⟩ ([0, 1] : List ℚ)
                (fun _ _ => 1) 0).mu) ^ 2 /
              (stateBefore (fun x => x) ⟨1, 0, 1, 1, 1⟩ ([0, 1] : List ℚ)
                (fun _ _ => 1) 0).sigma2))) ++
        [DrawReq.normalD
            ((1 / (1 / Params.tau2 ⟨1, 0, 1, 1, 1⟩ +
                (stateBefore (fun x => x) ⟨1, 0, 1, 1, 1⟩ ([0, 1] : List ℚ)
                  (fun _ _ => 1) (0 + 1)).lambdas.sum /
                  (stateBefore (fun x => x) ⟨1, 0, 1, 1, 1⟩ ([0, 1] : List ℚ)
                    (fun _ _ => 1) 0).sigma2)) *
              (Params.mu0 ⟨1, 0, 1, 1, 1⟩ / Params.tau2 ⟨1, 0, 1, 1, 1⟩ +
                (List.zipWith (fun l x => l * x)
                  (stateBefore (fun x => x) ⟨1, 0, 1, 1, 1⟩ ([0, 1] : List ℚ)
                    (fun _ _ => 1) (0 + 1)).lambdas ([0, 1] : List ℚ)).sum /
                  (stateBefore (fun x => x) ⟨1, 0, 1, 1, 1⟩ ([0, 1] : List ℚ)
                    (fun _ _ => 1) 0).sigma2))
            ((fun x => x) (1 / (1 / Params.tau2 ⟨1, 0, 1, 1, 1⟩ +
                (stateBefore (fun x => x) ⟨1, 0, 1, 1, 1⟩ ([0, 1] : List ℚ)
                  (fun _ _ => 1) (0 + 1)).lambdas.sum /
                  (stateBefore (fun x => x) ⟨1, 0, 1, 1, 1⟩ ([0, 1] : List ℚ)
                    (fun _ _ => 1) 0).sigma2))),
          DrawReq.invGammaD
            (Params.a0 ⟨1, 0, 1, 1, 1⟩ + (([0, 1] : List ℚ).length : ℚ) / 2)
            (Params.b0 ⟨1, 0, 1, 1, 1⟩ + 1 / 2 *
              (List.zipWith
                (fun l x =>
                  l * (x - (stateBefore (fun x => x) ⟨1, 0, 1, 1, 1⟩ ([0, 1] : List ℚ)
                    (fun _ _ => 1) (0 + 1)).mu) ^ 2)
                (stateBefore (fun x => x) ⟨1, 0, 1, 1, 1⟩ ([0, 1] : List ℚ)
                  (fun _ _ => 1) (0 + 1)).lambdas ([0, 1] : List ℚ)).sum)]) :=
  ⟨by decide,
    C1_update_cycle (fun x => x) ⟨1, 0, 1, 1, 1⟩ ([0, 1] : List ℚ) (fun _ _ => 1) 1 0
      (by decide)⟩

/-! ### Positivity of the drawn quantities -/

theorem drawList_mem_pos (ω : Oracle α) (hω : PosOracle ω) :
    ∀ (rs : List (DrawReq α)) (pos : ℕ),
      (∀ r ∈ rs, ∃ sh sc, 0 < sh ∧ 0 < sc ∧ r = DrawReq.gammaD sh sc) →
      ∀ l ∈ drawList ω pos rs, 0 < l
  | [], _, _ => by intro l hl; simp [drawList] at hl
  | r :: rs, pos, hr => by
    intro l hl
    simp only [drawList, List.mem_cons] at hl
    rcases hl with hl | hl
    · obtain ⟨sh, sc, hsh, hsc, hreq⟩ := hr r (List.mem_cons_self r rs)
      rw [hl, hreq]
      exact (hω pos sh sc hsh hsc).1
    · exact drawList_mem_pos ω hω rs (pos + 1)
        (fun r' h' => hr r' (List.mem_cons_of_mem _ h')) l hl

theorem zipWith_weight_sq_sum_nonneg (m : α) :
    ∀ (ls xs : List α), (∀ l ∈ ls, 0 < l) →
      0 ≤ (List.zipWith (fun l x => l * (x - m) ^ 2) ls xs).sum
  | [], _, _ => by simp
  | _ :: _, [], _ => by simp
  | l :: ls, x :: xs, h => by
    simp only [List.zipWith_cons_cons, List.sum_cons]
    have h1 : 0 ≤ l * (x - m) ^ 2 :=
      mul_nonneg (le_of_lt (h l (List.mem_cons_self _ _))) (sq_nonneg _)
    have h2 := zipWith_weight_sq_sum_nonneg m ls xs
      (fun l' h' => h l' (List.mem_cons_of_mem _ h'))
    linarith

theorem gibbsStep_pos (sqrtf : α → α) (P : Params α) (returns : List α) (ω : Oracle α)
    (pos : ℕ) (st : GState α) (hν : 0 < P.nu) (ha : 0 < P.a0) (hb : 0 < P.b0)
    (hω : PosOracle ω) (hs : 0 < st.sigma2) :
    0 < (gibbsStep sqrtf P returns ω pos st).state.sigma2 ∧
    (∀ l ∈ (gibbsStep sqrtf P returns ω pos st).state.lambdas, 0 < l) ∧
    0 < (gibbsStep sqrtf P returns ω pos st).record.2.1 := by
  have hreqs : ∀ r ∈ returns.map fun x =>
      DrawReq.gammaD ((P.nu + 1) / 2) (2 / (P.nu + (x - st.mu) ^ 2 / st.sigma2)),
      ∃ sh sc, (0:α) < sh ∧ 0 < sc ∧ r = DrawReq.gammaD sh sc := by
    intro r hr
    simp only [List.mem_map] at hr
    obtain ⟨x, _, rfl⟩ := hr
    refine ⟨_, _, by positivity, ?_, rfl⟩
    have hden : 0 < P.nu + (x - st.mu) ^ 2 / st.sigma2 :=
      add_pos_of_pos_of_nonneg hν (div_nonneg (sq_nonneg _) hs.le)
    positivity
  have hlam : ∀ l ∈ drawList ω pos (returns.map fun x =>
      DrawReq.gammaD ((P.nu + 1) / 2) (2 / (P.nu + (x - st.mu) ^ 2 / st.sigma2))), 0 < l :=
    drawList_mem_pos ω hω _ pos hreqs
  have hshape : (0:α) < P.a0 + (returns.length : α) / 2 :=
    add_pos_of_pos_of_nonneg ha (div_nonneg (Nat.cast_nonneg _) (by norm_num))
  refine ⟨?_, ?_, ?_⟩
  · simp only [gibbsStep]
    refine (hω _ _ _ hshape ?_).2
    exact add_pos_of_pos_of_nonneg hb
      (mul_nonneg (by norm_num) (zipWith_weight_sq_sum_nonneg _ _ returns hlam))
  · simp only [gibbsStep]
    exact hlam
  · simp only [gibbsStep]
    refine (hω _ _ _ hshape ?_).2
    exact add_pos_of_pos_of_nonneg hb
      (mul_nonneg (by norm_num) (zipWith_weight_sq_sum_nonneg _ _ returns hlam))

theorem stateFrom_pos (sqrtf : α → α) (P : Params α) (returns : List α) (ω : Oracle α)
    (hν : 0 < P.nu) (ha : 0 < P.a0) (hb : 0 < P.b0) (hω : PosOracle ω) :
    ∀ (i pos : ℕ) (st : GState α), 0 < st.sigma2 → (∀ l ∈ st.lambdas, 0 < l) →
      0 < (stateFrom sqrtf P returns ω i pos st).sigma2 ∧
      ∀ l ∈ (stateFrom sqrtf P returns ω i pos st).lambdas, 0 < l
  | 0, _, _, hs, hl => ⟨hs, hl⟩
  | i + 1, pos, st, hs, _ => by
    have hstep := gibbsStep_pos sqrtf P returns ω pos st hν ha hb hω hs
    exact stateFrom_pos sqrtf P returns ω hν ha hb hω i (pos + returns.length + 2)
      (gibbsStep sqrtf P returns ω pos st).state hstep.1 hstep.2.1

theorem gibbsIters_record_pos (sqrtf : α → α) (P : Params α) (returns : List α)
    (ω : Oracle α) (hν : 0 < P.nu) (ha : 0 < P.a0) (hb : 0 < P.b0) (hω : PosOracle ω) :
    ∀ (k pos : ℕ) (st : GState α), 0 < st.sigma2 →
      ∀ out ∈ gibbsIters sqrtf P returns ω k pos st, 0 < out.record.2.1
  | 0, _, _, _ => by intro out h; simp [gibbsIters] at h
  | k + 1, pos, st, hs => by
    intro out h
    simp only [gibbsIters, List.mem_cons] at h
    have hstep := gibbsStep_pos sqrtf P returns ω pos st hν ha hb hω hs
    rcases h with h | h
    · rw [h]; exact hstep.2.2
    · exact gibbsIters_record_pos sqrtf P returns ω hν ha hb hω k
        (pos + returns.length + 2) _ hstep.1 out h

/-- C4 (amended): under the stated preconditions AND the additional
hypothesis that the unbiased sample variance of the returns is strictly
positive (non-constant data, so the *initial* sigma², which is that
variance, is positive), sigma² and every latent scale value are strictly
positive at all times during the run, and in particular every returned
sigma² sample is strictly positive.  The positivity of the drawn values is
the model assumption `PosOracle`: Gamma and Inverse-Gamma draws with
well-formed (positive) parameters land in the distributions' support
`(0, ∞)`; the proof shows the parameters passed are indeed positive. -/
theorem C4_positivity (sqrtf : α → α) (P : Params α) (returns : List α) (ω : Oracle α)
    (ha : 0 < P.a0) (hb : 0 < P.b0) (hτ : 0 < P.tau2) (hν : 0 < P.nu)
    (hn : 2 ≤ returns.length) (hvar : 0 < npVar1 returns) (hω : PosOracle ω) :
    (∀ i : ℕ, 0 < (stateBefore sqrtf P returns ω i).sigma2 ∧
      ∀ l ∈ (stateBefore sqrtf P returns ω i).lambdas, 0 < l) ∧
    ∀ (n_iter burn_in : ℕ) (s : α),
      s ∈ (gibbs_sharpe_student sqrtf P returns n_iter burn_in ω).2.1 → 0 < s := by
  have hinit_l : ∀ l ∈ (initState returns : GState α).lambdas, 0 < l := by
    intro l hl
    simp only [initState, List.mem_replicate] at hl
    rw [hl.2]; exact one_pos
  constructor
  · intro i
    exact stateFrom_pos sqrtf P returns ω hν ha hb hω i 0 (initState returns) hvar hinit_l
  · intro n_iter burn_in s hs
    have hmem : s ∈ (gibbsRecords sqrtf P returns ω n_iter).map fun r => r.2.1 := by
      simp only [gibbs_sharpe_student] at hs
      exact List.drop_subset _ _ hs
    simp only [gibbsRecords, List.map_map, List.mem_map, Function.comp_def] at hmem
    obtain ⟨out, hout, rfl⟩ := hmem
    exact gibbsIters_record_pos sqrtf P returns ω hν ha hb hω n_iter 0
      (initState returns) hvar out hout

theorem C4_positivity_witness :
    ((0:ℚ) < 1 ∧ (0:ℚ) < 1 ∧ (0:ℚ) < 1 ∧ (0:ℚ) < 1 ∧ 2 ≤ ([0, 1] : List ℚ).length ∧
      0 < npVar1 ([0, 1] : List ℚ) ∧ PosOracle (fun _ _ => (1:ℚ))) ∧
    ((∀ i : ℕ, 0 < (stateBefore (fun x => x) ⟨1, 0, 1, 1, 1⟩ ([0, 1] : List ℚ)
        (fun _ _ => 1) i).sigma2 ∧
      ∀ l ∈ (stateBefore (fun x => x) ⟨1, 0, 1, 1, 1⟩ ([0, 1] : List ℚ)
        (fun _ _ => 1) i).lambdas, 0 < l) ∧
    ∀ (n_iter burn_in : ℕ) (s : ℚ),
      s ∈ (gibbs_sharpe_student (fun x => x) ⟨1, 0, 1, 1, 1⟩ ([0, 1] : List ℚ)
        n_iter burn_in (fun _ _ => 1)).2.1 → 0 < s) :=
  ⟨⟨by norm_num, by norm_num, by norm_num, by norm_num, by decide,
      by norm_num [npVar1, npMean], fun _ _ _ _ _ => ⟨one_pos, one_pos⟩⟩,
    C4_positivity (fun x => x) ⟨1, 0, 1, 1, 1⟩ ([0, 1] : List ℚ) (fun _ _ => 1)
      (by norm_num) (by norm_num) (by norm_num) (by norm_num) (by decide)
      (by norm_num [npVar1, npMean]) (fun _ _ _ _ _ => ⟨one_pos, one_pos⟩)⟩

/-- C4 as literally stated is false: with `returns = [1, 1]` every stated
precondition holds (`a0 = b0 = tau2 = nu = 1 > 0`, `n = 2`) and the oracle
respects positivity, yet the chain state entering iteration 0 has
sigma² = 0 — the unbiased sample variance of constant data — so sigma² is
not strictly positive at all times during the run. -/
theorem C4_counterexample :
    ((0:ℚ) < 1 ∧ 2 ≤ ([1, 1] : List ℚ).length ∧ PosOracle (fun _ _ => (1:ℚ))) ∧
    ¬ (0 < (stateBefore (fun x => x) ⟨1, 0, 1, 1, 1⟩ ([1, 1] : List ℚ)
        (fun _ _ => 1) 0).sigma2) :=
  ⟨⟨by norm_num, by decide, fun _ _ _ _ _ => ⟨one_pos, one_pos⟩⟩, by
    have hz : (stateBefore (fun x => x) ⟨1, 0, 1, 1, 1⟩ ([1, 1] : List ℚ)
        (fun _ _ => 1) 0).sigma2 = 0 := by
      simp [stateBefore, stateFrom, initState, npVar1, npMean]
    rw [hz]
    exact lt_irrefl 0⟩

/-! ### Absence of eager validation -/

/-- C8 as stated is false: `burn_in ≥ n_iter` is one of the listed
precondition violations, yet on the concrete input
`returns = [0, 2], n_iter = 2, burn_in = 5` the function does not fail at
any point — it returns normally, with three empty sequences. -/
theorem C8_counterexample :
    2 ≤ 5 ∧
    gibbs_sharpe_student (fun x => x) ⟨1, 0, 1, 1, 1⟩ ([0, 2] : List ℚ) 2 5
      (fun _ _ => 1) = ([], [], []) :=
  ⟨by decide, rfl⟩

/-- C8 (amended): the function performs no eager validation.  For every
input — precondition-violating ones included, since nothing below is
hypothesis-guarded — the loop is entered and executes all `n_iter`
iterations, the (possibly degenerate) parameters flowing into the
arithmetic and sampling primitives; and in particular `burn_in ≥ n_iter`
never causes a failure: the function completes and returns three empty
sequences instead of an error. -/
theorem C8_no_eager_validation (sqrtf : α → α) (P : Params α) (returns : List α)
    (ω : Oracle α) (n_iter burn_in : ℕ) :
    (gibbsIters sqrtf P returns ω n_iter 0 (initState returns)).length = n_iter ∧
    (n_iter ≤ burn_in →
      gibbs_sharpe_student sqrtf P returns n_iter burn_in ω = ([], [], [])) := by
  refine ⟨gibbsIters_length sqrtf P returns ω n_iter 0 (initState returns), ?_⟩
  intro h
  have hlen : ∀ g : α × α × α → α,
      ((gibbsRecords sqrtf P returns ω n_iter).map g).length ≤ burn_in := by
    intro g
    simp only [List.length_map, gibbsRecords_length]
    exact h
  simp only [gibbs_sharpe_student]
  rw [List.drop_eq_nil_of_le (hlen _), List.drop_eq_nil_of_le (hlen _),
    List.drop_eq_nil_of_le (hlen _)]

theorem C8_no_eager_validation_witness :
    (gibbsIters (fun x => x) ⟨1, 0, 1, 1, 1⟩ ([] : List ℚ) (fun _ _ => 1) 1 0
      (initState ([] : List ℚ))).length = 1 ∧
    gibbs_sharpe_student (fun x => x) ⟨1, 0, 1, 1, 1⟩ ([] : List ℚ) 1 2
      (fun _ _ => 1) = ([], [], []) :=
  ⟨(C8_no_eager_validation (fun x => x) ⟨1, 0, 1, 1, 1⟩ ([] : List ℚ)
      (fun _ _ => 1) 1 2).1,
    (C8_no_eager_validation (fun x => x) ⟨1, 0, 1, 1, 1⟩ ([] : List ℚ)
      (fun _ _ => 1) 1 2).2 (by decide)⟩

end Gibbs
